import Mathlib

/-!
A verification development for the sleep-session reconstruction core of the
GFit-Intervals-sync repository (`src/google_fit_api.py`).

Time instants are modelled as integer microseconds since the epoch (the
resolution of Python's `datetime`).  `datetime.fromtimestamp(ns / 1e9)` is
modelled as integer division of nanoseconds by 1000, and
`datetime.fromtimestamp(ms / 1e3)` as multiplication of milliseconds by 1000;
both conversions are monotone, which is all the claims depend on.
Fallible Python code (enum lookup failure, `assert`, `raise`) is modelled
with `Option`.
-/

/-- `class SleepType(Enum)` from `google_fit_api.py`: the six sleep stage
codes 1–6. -/
inductive SleepType where
  | Awake
  | Sleep
  | Out_of_bed
  | Light_Sleep
  | Deep_Sleep
  | REM
deriving DecidableEq, Repr

/-- `SleepType(code)`: the Python `Enum` constructor call, which raises
`ValueError` on a code outside 1–6 (modelled as `none`). -/
def classify (code : Int) : Option SleepType :=
  if code = 1 then some SleepType.Awake
  else if code = 2 then some SleepType.Sleep
  else if code = 3 then some SleepType.Out_of_bed
  else if code = 4 then some SleepType.Light_Sleep
  else if code = 5 then some SleepType.Deep_Sleep
  else if code = 6 then some SleepType.REM
  else none

/-- `ASLEEP_TYPES` from `google_fit_api.py`. -/
def ASLEEP_TYPES : List SleepType :=
  [SleepType.Sleep, SleepType.Light_Sleep, SleepType.Deep_Sleep, SleepType.REM]

/-- The literal tuple `(SleepType.Awake,)` used by `SleepSession.awake_duration`. -/
def AWAKE_TYPES : List SleepType := [SleepType.Awake]

/-- `@dataclass class SleepSegment`: start/end instants (integer
microseconds) and a stage. -/
structure SleepSegment where
  start_time : Int
  end_time : Int
  sleep_type : SleepType
deriving DecidableEq, Repr

/-- `SleepSegment.duration`: `end_time - start_time`. -/
def SleepSegment.duration (seg : SleepSegment) : Int :=
  seg.end_time - seg.start_time

/-- The raw stage-segment record shape consumed by `SleepSegment.from_dict`:
`startTimeNanos`, `endTimeNanos` and `value[0]['intVal']`. -/
structure RawSegment where
  startTimeNanos : Int
  endTimeNanos : Int
  intVal : Int
deriving DecidableEq, Repr

/-- `datetime.fromtimestamp(int(nanos) / 1e9)` as microseconds. -/
def decodeNanos (ns : Int) : Int := ns / 1000

/-- `datetime.fromtimestamp(int(millis) / 1e3)` as microseconds. -/
def decodeMillis (ms : Int) : Int := ms * 1000

/-- `SleepSegment.from_dict`: decodes the nano-epoch fields and classifies
the stage code; fails (where Python raises `ValueError`) on an unknown code. -/
def SleepSegment.from_dict (d : RawSegment) : Option SleepSegment :=
  match classify d.intVal with
  | none => none
  | some t => some ⟨decodeNanos d.startTimeNanos, decodeNanos d.endTimeNanos, t⟩

/-- `@dataclass class SleepSession`: session boundaries plus the list of
segments assigned to it. -/
structure SleepSession where
  start_time : Int
  end_time : Int
  sleep_segments : List SleepSegment
deriving DecidableEq, Repr

/-- The raw session record shape consumed by `SleepSession.from_dict`:
`activityType`, `startTimeMillis`, `endTimeMillis`. -/
structure RawSession where
  activityType : Int
  startTimeMillis : Int
  endTimeMillis : Int
deriving DecidableEq, Repr

/-- `SleepSession.from_dict(data, sleep_segments=None)`: asserts
`activityType == 72`, decodes the milli-epoch fields, and substitutes the
empty list when no segment list is given. -/
def SleepSession.from_dict (d : RawSession)
    (sleep_segments : Option (List SleepSegment)) : Option SleepSession :=
  if d.activityType = 72 then
    some ⟨decodeMillis d.startTimeMillis, decodeMillis d.endTimeMillis,
          sleep_segments.getD []⟩
  else
    none

/-- `SleepSession.sleep_type_duration`: returns `None` when the segment list
is `None`, otherwise sums the durations of the segments whose stage is in
`sleep_types` (the Python `for` loop accumulating a `timedelta`). -/
def sleep_type_duration (sleep_segments : Option (List SleepSegment))
    (sleep_types : List SleepType) : Option Int :=
  match sleep_segments with
  | none => none
  | some segs =>
    some (segs.foldl
      (fun acc seg =>
        if seg.sleep_type ∈ sleep_types then acc + seg.duration else acc) 0)

/-- `SleepSession.asleep_duration`. -/
def SleepSession.asleep_duration (s : SleepSession) : Option Int :=
  sleep_type_duration (some s.sleep_segments) ASLEEP_TYPES

/-- `SleepSession.awake_duration`. -/
def SleepSession.awake_duration (s : SleepSession) : Option Int :=
  sleep_type_duration (some s.sleep_segments) AWAKE_TYPES

/-- The containment test of the merge loop:
`sleep_session.start_time <= sleep_segment.start_time <= sleep_session.end_time`. -/
def containsStart (s : SleepSession) (seg : SleepSegment) : Prop :=
  s.start_time ≤ seg.start_time ∧ seg.start_time ≤ s.end_time

instance (s : SleepSession) (seg : SleepSegment) : Decidable (containsStart s seg) :=
  inferInstanceAs (Decidable (_ ∧ _))

/-- The inner `while session_index < len(sleep_sessions)` scan of the merge
loop (lines 220–228): starting from the cursor, advance past sessions whose
interval does not contain the segment's start and stop at the first one that
does.  Returns the sessions passed over, the matching session and the
sessions after it; `none` is the exhausted-cursor (`for ... else`) case. -/
def findSession : List SleepSession → SleepSegment →
    Option (List SleepSession × SleepSession × List SleepSession)
  | [], _ => none
  | s :: ss, seg =>
    if containsStart s seg then
      some ([], s, ss)
    else
      match findSession ss seg with
      | none => none
      | some (skipped, t, rest) => some (s :: skipped, t, rest)

/-- The two-pointer assignment loop of `get_sleep_sessions` (lines 217–230):
`done` holds the sessions the cursor already passed (in reverse), `cur` the
sessions from the cursor onward.  Each segment in order is appended to the
first remaining session whose interval contains its start instant;
exhausting the sessions is the `raise Exception("Illegal state")` path,
modelled as `none`. -/
def assignGo : List SleepSession → List SleepSession → List SleepSegment →
    Option (List SleepSession)
  | done, cur, [] => some (done.reverse ++ cur)
  | done, cur, seg :: rest =>
    match findSession cur seg with
    | none => none
    | some (skipped, s, ss) =>
      assignGo (skipped.reverse ++ done)
        ({ s with sleep_segments := s.sleep_segments ++ [seg] } :: ss) rest

/-- The whole assignment pass, cursor starting at index 0. -/
def assign (sessions : List SleepSession) (segments : List SleepSegment) :
    Option (List SleepSession) :=
  assignGo [] sessions segments

/-- The gap-filling pass of `get_sleep_sessions` (lines 232–240), for one
session: an empty list gets one full-interval `Sleep` filler; otherwise a
leading filler is inserted at the front when the first segment starts late,
and then a trailing filler is appended when the (current) last segment ends
early. -/
def fillSession (s : SleepSession) : SleepSession :=
  match s.sleep_segments with
  | [] =>
    { s with sleep_segments := [⟨s.start_time, s.end_time, SleepType.Sleep⟩] }
  | first :: rest =>
    let segs1 :=
      if first.start_time > s.start_time then
        ⟨s.start_time, first.start_time, SleepType.Sleep⟩ :: (first :: rest)
      else
        first :: rest
    let segs2 :=
      match segs1.getLast? with
      | none => segs1
      | some lastSeg =>
        if lastSeg.end_time < s.end_time then
          segs1 ++ [⟨lastSeg.end_time, s.end_time, SleepType.Sleep⟩]
        else
          segs1
    { s with sleep_segments := segs2 }

/-- The pure core of `get_sleep_sessions(..., segments=True)` once the raw
records have been fetched and decoded: return early on zero sessions
(lines 203–204), otherwise run the assignment loop and then the gap-filling
pass over every session. -/
def merge (sessions : List SleepSession) (segments : List SleepSegment) :
    Option (List SleepSession) :=
  if sessions.isEmpty then some []
  else (assign sessions segments).map (List.map fillSession)

/-- Boolean contiguity of a segment list: each segment's end instant equals
the next segment's start instant. -/
def contiguousB : List SleepSegment → Bool
  | [] => true
  | [_] => true
  | a :: b :: rest => (a.end_time == b.start_time) && contiguousB (b :: rest)

/-- The post-merge coverage invariant claimed by the spec: a non-empty
segment list, each segment a forward interval, consecutive segments
contiguous, starting at the session's start and ending at the session's
end — so the segments are ordered by start time and their union is exactly
the session interval, with no gaps and no overlaps. -/
def ExactCover (s : SleepSession) : Prop :=
  s.sleep_segments ≠ [] ∧
  contiguousB s.sleep_segments = true ∧
  (∀ seg ∈ s.sleep_segments, seg.start_time ≤ seg.end_time) ∧
  s.sleep_segments.head?.map SleepSegment.start_time = some s.start_time ∧
  (s.sleep_segments.getLast?).map SleepSegment.end_time = some s.end_time

instance (s : SleepSession) : Decidable (ExactCover s) := by
  unfold ExactCover; infer_instance

/-- The merge precondition that the sessions are ordered ascending by start
time. -/
def sessionsSortedB : List SleepSession → Bool
  | [] => true
  | [_] => true
  | a :: b :: rest =>
    decide (a.start_time ≤ b.start_time) && sessionsSortedB (b :: rest)

/-- The merge precondition that the segments are ordered ascending by start
time. -/
def segmentsSortedB : List SleepSegment → Bool
  | [] => true
  | [_] => true
  | a :: b :: rest =>
    decide (a.start_time ≤ b.start_time) && segmentsSortedB (b :: rest)

/-! ## Classification and construction -/

/-- C6: stage classification is total exactly on the integer codes 1–6,
mapping them to Awake, Sleep, Out-of-bed, Light, Deep and REM sleep in that
order, and fails on every other code; the asleep family is exactly
{Sleep, Light, Deep, REM} and the awake family exactly {Awake}. -/
theorem classify_total_on_known_codes :
    classify 1 = some SleepType.Awake ∧
    classify 2 = some SleepType.Sleep ∧
    classify 3 = some SleepType.Out_of_bed ∧
    classify 4 = some SleepType.Light_Sleep ∧
    classify 5 = some SleepType.Deep_Sleep ∧
    classify 6 = some SleepType.REM ∧
    (∀ code : Int, (classify code).isSome = true ↔ (1 ≤ code ∧ code ≤ 6)) ∧
    (∀ t : SleepType, t ∈ ASLEEP_TYPES ↔
      (t = SleepType.Sleep ∨ t = SleepType.Light_Sleep ∨
        t = SleepType.Deep_Sleep ∨ t = SleepType.REM)) ∧
    (∀ t : SleepType, t ∈ AWAKE_TYPES ↔ t = SleepType.Awake) := by
  refine ⟨rfl, rfl, rfl, rfl, rfl, rfl, ?_, ?_, ?_⟩
  · intro code
    unfold classify
    split_ifs <;> simp_all
    omega
  · intro t; cases t <;> simp [ASLEEP_TYPES]
  · intro t; cases t <;> simp [AWAKE_TYPES]

/-- C7: building a session from a raw record succeeds exactly when the
activity-type discriminator is the sleep constant 72, and then yields the
instants decoded from the millisecond-epoch fields together with the empty
segment list; any other activity type fails the `assert`. -/
theorem session_from_dict_spec (d : RawSession) :
    (d.activityType = 72 →
      SleepSession.from_dict d none =
        some ⟨decodeMillis d.startTimeMillis, decodeMillis d.endTimeMillis, []⟩) ∧
    (d.activityType ≠ 72 → SleepSession.from_dict d none = none) := by
  constructor
  · intro h
    simp [SleepSession.from_dict, h, Option.getD]
  · intro h
    simp [SleepSession.from_dict, h]

/-- C9 (counterexample): `SleepSegment.from_dict` performs no `start ≤ end`
validation — a raw record whose nano-epoch fields are reversed is decoded
successfully into a segment whose start instant is strictly later than its
end instant, contradicting the claimed interval invariant. -/
theorem interval_invariant_counterexample :
    SleepSegment.from_dict ⟨2000000000, 0, 2⟩ =
      some ⟨2000000, 0, SleepType.Sleep⟩ ∧
    ¬ ((2000000 : Int) ≤ 0) := by
  constructor
  · rfl
  · decide

/-- C9 (amended): the constructors never check `start ≤ end`, but their
decoding of the raw epoch fields is monotone, so whenever the raw record's
start field does not exceed its end field the constructed value satisfies
`start ≤ end`. -/
theorem from_dict_interval_monotone (d : RawSegment) (r : RawSession)
    (sl : Option (List SleepSegment)) (seg : SleepSegment) (s : SleepSession)
    (hseg : SleepSegment.from_dict d = some seg)
    (hs : SleepSession.from_dict r sl = some s)
    (h1 : d.startTimeNanos ≤ d.endTimeNanos)
    (h2 : r.startTimeMillis ≤ r.endTimeMillis) :
    seg.start_time ≤ seg.end_time ∧ s.start_time ≤ s.end_time := by
  constructor
  · unfold SleepSegment.from_dict at hseg
    cases hcl : classify d.intVal with
    | none => rw [hcl] at hseg; exact absurd hseg (by simp)
    | some t =>
      rw [hcl] at hseg
      have : seg = ⟨decodeNanos d.startTimeNanos, decodeNanos d.endTimeNanos, t⟩ := by
        exact (Option.some.injEq _ _ ▸ hseg).symm
      subst this
      simp only [decodeNanos]
      omega
  · unfold SleepSession.from_dict at hs
    by_cases h : r.activityType = 72
    · rw [if_pos h] at hs
      have : s = ⟨decodeMillis r.startTimeMillis, decodeMillis r.endTimeMillis,
          sl.getD []⟩ := by
        exact (Option.some.injEq _ _ ▸ hs).symm
      subst this
      simp only [decodeMillis]
      omega
    · rw [if_neg h] at hs
      exact absurd hs (by simp)

/-- Witness for `from_dict_interval_monotone` at a concrete well-ordered raw
segment and raw session record. -/
theorem from_dict_interval_monotone_witness :
    (SleepSegment.mk 0 1000000 SleepType.Awake).start_time ≤
      (SleepSegment.mk 0 1000000 SleepType.Awake).end_time ∧
    (SleepSession.mk 0 1000000 []).start_time ≤
      (SleepSession.mk 0 1000000 []).end_time :=
  from_dict_interval_monotone ⟨0, 1000000000, 1⟩ ⟨72, 0, 1000⟩ none
    ⟨0, 1000000, SleepType.Awake⟩ ⟨0, 1000000, []⟩
    (by decide) (by decide) (by decide) (by decide)

/-- C10: with an empty (but present) segment list both duration metrics are
the zero duration, not the `None` sentinel; `None` comes back only when the
segment list itself is `None`. -/
theorem empty_segment_list_durations (ts : List SleepType) (a b : Int) :
    sleep_type_duration none ts = none ∧
    sleep_type_duration (some []) ts = some 0 ∧
    (SleepSession.mk a b []).asleep_duration = some 0 ∧
    (SleepSession.mk a b []).awake_duration = some 0 :=
  ⟨rfl, rfl, rfl, rfl⟩

/-! ## The gap-filling pass -/

/-- Filling never changes a session's boundaries. -/
theorem fillSession_boundaries (s : SleepSession) :
    (fillSession s).start_time = s.start_time ∧
    (fillSession s).end_time = s.end_time := by
  cases s with
  | mk a b segs =>
    cases segs with
    | nil => exact ⟨rfl, rfl⟩
    | cons first rest =>
      constructor <;> simp only [fillSession]

/-- Filling a session with no assigned segments yields exactly the single
full-interval `Sleep` filler. -/
theorem fillSession_segments_nil (a b : Int) :
    (fillSession ⟨a, b, []⟩).sleep_segments = [⟨a, b, SleepType.Sleep⟩] := rfl

/-- Characterization of the gap-filling pass on a session with at least one
assigned segment: an optional leading filler, the assigned segments
untouched, and an optional trailing filler. -/
theorem fillSession_segments_cons (a b : Int) (first : SleepSegment)
    (rest : List SleepSegment) (lastSeg : SleepSegment)
    (hl : (first :: rest).getLast? = some lastSeg) :
    (fillSession ⟨a, b, first :: rest⟩).sleep_segments =
      (if first.start_time > a then [⟨a, first.start_time, SleepType.Sleep⟩] else [])
      ++ (first :: rest)
      ++ (if lastSeg.end_time < b then [⟨lastSeg.end_time, b, SleepType.Sleep⟩] else []) := by
  simp only [fillSession]
  by_cases h1 : first.start_time > a
  · rw [if_pos h1]
    have hgl : (SleepSegment.mk a first.start_time SleepType.Sleep
        :: first :: rest).getLast? = some lastSeg := by
      rw [List.getLast?_cons_cons]; exact hl
    rw [hgl]
    by_cases h2 : lastSeg.end_time < b
    · rw [if_pos h2]; simp [h1, h2]
    · rw [if_neg h2]; simp [h1, h2]
  · rw [if_neg h1]
    rw [hl]
    by_cases h2 : lastSeg.end_time < b
    · rw [if_pos h2]; simp [h1, h2]
    · rw [if_neg h2]; simp [h1, h2]

/-- C2: the gap-filling pass synthesizes exactly one full-interval `Sleep`
filler for a session with no assigned segments; otherwise it prepends a
`[session.start, first.start)` `Sleep` filler exactly when the first
assigned segment starts strictly after the session start, appends a
`[last.end, session.end]` `Sleep` filler exactly when the last assigned
segment ends strictly before the session end, and synthesizes nothing else:
the assigned segments stay unmodified in the middle, with no interior
fillers. -/
theorem fill_pass_spec (s : SleepSession) :
    (s.sleep_segments = [] →
      (fillSession s).sleep_segments =
        [⟨s.start_time, s.end_time, SleepType.Sleep⟩]) ∧
    (∀ first rest lastSeg, s.sleep_segments = first :: rest →
      (first :: rest).getLast? = some lastSeg →
      (fillSession s).sleep_segments =
        (if first.start_time > s.start_time then
          [⟨s.start_time, first.start_time, SleepType.Sleep⟩] else [])
        ++ (first :: rest)
        ++ (if lastSeg.end_time < s.end_time then
          [⟨lastSeg.end_time, s.end_time, SleepType.Sleep⟩] else [])) := by
  cases s with
  | mk a b segs =>
    constructor
    · intro h
      cases h
      exact fillSession_segments_nil a b
    · intro first rest lastSeg hsegs hl
      cases hsegs
      exact fillSession_segments_cons a b first rest lastSeg hl

/-! ## The assignment loop -/

/-- A successful scan splits the remaining sessions into the sessions the
cursor passed (none of which contain the segment's start), the matching
session, and the sessions after it. -/
theorem findSession_some (cur : List SleepSession) (seg : SleepSegment)
    (skipped : List SleepSession) (s : SleepSession) (ss : List SleepSession)
    (h : findSession cur seg = some (skipped, s, ss)) :
    cur = skipped ++ s :: ss ∧ containsStart s seg ∧
      ∀ t ∈ skipped, ¬ containsStart t seg := by
  induction cur generalizing skipped with
  | nil => exact absurd h (by simp [findSession])
  | cons head tail ih =>
    by_cases hc : containsStart head seg
    · rw [findSession, if_pos hc] at h
      obtain ⟨h1, h2, h3⟩ : skipped = [] ∧ head = s ∧ tail = ss := by
        injection h with h'
        injection h' with ha hb
        injection hb with hb hc'
        exact ⟨ha.symm, hb, hc'⟩
      subst h1; subst h2; subst h3
      exact ⟨rfl, hc, by simp⟩
    · rw [findSession, if_neg hc] at h
      cases hrec : findSession tail seg with
      | none => rw [hrec] at h; exact absurd h (by simp)
      | some found =>
        obtain ⟨sk', t', rest'⟩ := found
        rw [hrec] at h
        obtain ⟨h1, h2, h3⟩ : skipped = head :: sk' ∧ t' = s ∧ rest' = ss := by
          injection h with h'
          injection h' with ha hb
          injection hb with hb hc'
          exact ⟨ha.symm, hb, hc'⟩
        subst h1; subst h2; subst h3
        obtain ⟨e1, e2, e3⟩ := ih sk' hrec
        refine ⟨by rw [e1]; rfl, e2, ?_⟩
        intro t ht
        rcases List.mem_cons.mp ht with h' | h'
        · subst h'; exact hc
        · exact e3 t h'

/-- A failed scan means no remaining session contains the segment's start. -/
theorem findSession_none (cur : List SleepSession) (seg : SleepSegment)
    (h : findSession cur seg = none) :
    ∀ s ∈ cur, ¬ containsStart s seg := by
  induction cur with
  | nil => simp
  | cons head tail ih =>
    by_cases hc : containsStart head seg
    · rw [findSession, if_pos hc] at h; exact absurd h (by simp)
    · rw [findSession, if_neg hc] at h
      cases hrec : findSession tail seg with
      | none =>
        intro s hs
        rcases List.mem_cons.mp hs with h' | h'
        · subst h'; exact hc
        · exact ih hrec s h'
      | some found => rw [hrec] at h; exact absurd h (by simp)

/-- Every segment distributed by a successful run of the assignment loop has
its start instant inside some session still ahead of the cursor. -/
theorem assignGo_mem (segs : List SleepSegment) :
    ∀ done cur out, assignGo done cur segs = some out →
    ∀ sg ∈ segs, ∃ s ∈ cur, containsStart s sg := by
  induction segs with
  | nil => simp
  | cons sg rest ih =>
    intro done cur out h sg' hsg'
    rw [assignGo] at h
    cases hf : findSession cur sg with
    | none => rw [hf] at h; exact absurd h (by simp)
    | some found =>
      obtain ⟨skipped, s, ss⟩ := found
      rw [hf] at h
      obtain ⟨hsplit, hcont, -⟩ := findSession_some cur sg skipped s ss hf
      have hs_mem : s ∈ cur := by rw [hsplit]; exact List.mem_append_right _ (by simp)
      rcases List.mem_cons.mp hsg' with h' | h'
      · subst h'; exact ⟨s, hs_mem, hcont⟩
      · obtain ⟨t, ht, htc⟩ := ih _ _ _ h sg' h'
        rcases List.mem_cons.mp ht with h'' | h''
        · subst h''
          exact ⟨s, hs_mem, htc⟩
        · refine ⟨t, ?_, htc⟩
          rw [hsplit]
          exact List.mem_append_right _ (List.mem_cons_of_mem _ h'')

/-- The assignment loop never changes any session's boundaries. -/
theorem assignGo_bounds (segs : List SleepSegment) :
    ∀ done cur out, assignGo done cur segs = some out →
    out.map (fun t => (t.start_time, t.end_time)) =
      (done.reverse ++ cur).map (fun t => (t.start_time, t.end_time)) := by
  induction segs with
  | nil =>
    intro done cur out h
    rw [assignGo] at h
    injection h with h
    rw [h]
  | cons sg rest ih =>
    intro done cur out h
    rw [assignGo] at h
    cases hf : findSession cur sg with
    | none => rw [hf] at h; exact absurd h (by simp)
    | some found =>
      obtain ⟨skipped, s, ss⟩ := found
      rw [hf] at h
      obtain ⟨hsplit, -, -⟩ := findSession_some cur sg skipped s ss hf
      have := ih _ _ _ h
      rw [this, hsplit]
      simp [List.map_append]

/-- A list of sessions that all carry empty segment lists contributes no
segments. -/
theorem flatten_segments_nil (l : List SleepSession)
    (h : ∀ t ∈ l, t.sleep_segments = []) :
    (l.map SleepSession.sleep_segments).flatten = [] := by
  induction l with
  | nil => simp
  | cons a t ih =>
    have ha := h a (List.mem_cons_self a t)
    have ht := fun x hx => h x (List.mem_cons_of_mem a hx)
    simp [ha, ih ht]

/-- Running the assignment loop appends exactly the distributed segments, in
order, to the sessions' segment lists, provided every session strictly ahead
of the cursor still has an empty list. -/
theorem assignGo_join (segs : List SleepSegment) :
    ∀ done cur out,
    (∀ t ∈ cur.drop 1, t.sleep_segments = []) →
    assignGo done cur segs = some out →
    (out.map SleepSession.sleep_segments).flatten =
      ((done.reverse ++ cur).map SleepSession.sleep_segments).flatten ++ segs := by
  induction segs with
  | nil =>
    intro done cur out htail h
    rw [assignGo] at h
    injection h with h
    rw [h]; simp
  | cons sg rest ih =>
    intro done cur out htail h
    rw [assignGo] at h
    cases hf : findSession cur sg with
    | none => rw [hf] at h; exact absurd h (by simp)
    | some found =>
      obtain ⟨skipped, s, ss⟩ := found
      rw [hf] at h
      obtain ⟨hsplit, -, -⟩ := findSession_some cur sg skipped s ss hf
      have hss_sub : ∀ t ∈ ss, t.sleep_segments = [] := by
        intro t ht
        apply htail
        rw [hsplit]
        cases skipped with
        | nil => simpa using ht
        | cons a sk =>
          rw [List.cons_append, List.drop_succ_cons, List.drop_zero]
          exact List.mem_append_right _ (List.mem_cons_of_mem _ ht)
      have htail' : ∀ t ∈ ({ s with sleep_segments := s.sleep_segments ++ [sg] }
          :: ss).drop 1, t.sleep_segments = [] := by
        simpa using hss_sub
      have hIH := ih _ _ _ htail' h
      have hjss : (ss.map SleepSession.sleep_segments).flatten = [] :=
        flatten_segments_nil ss hss_sub
      rw [hIH, hsplit]
      simp [List.map_append, List.flatten_append, hjss]

/-- A successful run of the assignment loop only ever appends a segment to a
session whose interval contains that segment's start instant. -/
theorem assignGo_contains (segs : List SleepSegment) :
    ∀ done cur out,
    (∀ t ∈ done ++ cur, ∀ sg ∈ t.sleep_segments, containsStart t sg) →
    assignGo done cur segs = some out →
    ∀ t ∈ out, ∀ sg ∈ t.sleep_segments, containsStart t sg := by
  induction segs with
  | nil =>
    intro done cur out hin h
    rw [assignGo] at h
    injection h with h
    subst h
    intro t ht
    apply hin
    rcases List.mem_append.mp ht with h' | h'
    · exact List.mem_append_left _ (List.mem_reverse.mp h')
    · exact List.mem_append_right _ h'
  | cons sg rest ih =>
    intro done cur out hin h
    rw [assignGo] at h
    cases hf : findSession cur sg with
    | none => rw [hf] at h; exact absurd h (by simp)
    | some found =>
      obtain ⟨skipped, s, ss⟩ := found
      rw [hf] at h
      obtain ⟨hsplit, hcont, -⟩ := findSession_some cur sg skipped s ss hf
      have hs_mem : s ∈ cur := by
        rw [hsplit]; exact List.mem_append_right _ (List.mem_cons_self _ _)
      refine ih _ _ _ ?_ h
      intro t ht
      rcases List.mem_append.mp ht with h' | h'
      · rcases List.mem_append.mp h' with h'' | h''
        · have : t ∈ cur := by
            rw [hsplit]
            exact List.mem_append_left _ (List.mem_reverse.mp h'')
          exact hin t (List.mem_append_right _ this)
        · exact hin t (List.mem_append_left _ h'')
      · rcases List.mem_cons.mp h' with h'' | h''
        · subst h''
          intro sg' hsg'
          rcases List.mem_append.mp hsg' with h3 | h3
          · exact hin s (List.mem_append_right _ hs_mem) sg' h3
          · have : sg' = sg := by simpa using h3
            subst this
            exact hcont
        · have : t ∈ cur := by
            rw [hsplit]
            exact List.mem_append_right _ (List.mem_cons_of_mem _ h'')
          exact hin t (List.mem_append_right _ this)

/-- C3: under the merge preconditions (sessions and segments sorted
ascending by start time, every segment's start inside some session, and
assembler-built sessions starting with empty segment lists), a run of the
assignment loop that does not fail loudly distributes every input segment to
exactly one session, unmodified and in order, each into a session whose
interval contains the segment's start instant; session boundaries are
untouched, and the merge result is exactly these sessions gap-filled, each
keeping its assigned segments contiguously in the middle. -/
theorem merge_conservation (sessions : List SleepSession)
    (segments : List SleepSegment) (out : List SleepSession)
    (_hsorted_sessions : sessionsSortedB sessions = true)
    (_hsorted_segments : segmentsSortedB segments = true)
    (_hcover : ∀ seg ∈ segments, ∃ s ∈ sessions, containsStart s seg)
    (hempty : ∀ s ∈ sessions, s.sleep_segments = [])
    (h : assign sessions segments = some out) :
    (out.map SleepSession.sleep_segments).flatten = segments ∧
    (∀ s ∈ out, ∀ seg ∈ s.sleep_segments, containsStart s seg) ∧
    out.map (fun t => (t.start_time, t.end_time)) =
      sessions.map (fun t => (t.start_time, t.end_time)) ∧
    merge sessions segments = some (out.map fillSession) ∧
    (∀ s ∈ out, ∃ pre suf,
      (fillSession s).sleep_segments = pre ++ s.sleep_segments ++ suf) := by
  refine ⟨?_, ?_, ?_, ?_, ?_⟩
  · have hj := assignGo_join segments [] sessions out
      (fun t ht => hempty t (List.mem_of_mem_drop ht)) h
    simpa [flatten_segments_nil sessions hempty] using hj
  · refine assignGo_contains segments [] sessions out ?_ h
    intro t ht sg hsg
    have : t.sleep_segments = [] := hempty t (by simpa using ht)
    rw [this] at hsg
    exact absurd hsg (by simp)
  · simpa using assignGo_bounds segments [] sessions out h
  · cases sessions with
    | nil =>
      cases segments with
      | nil =>
        rw [assign, assignGo] at h
        injection h with h
        rw [← h]
        rfl
      | cons a r =>
        rw [assign, assignGo] at h
        exact absurd h (by simp [findSession])
    | cons s0 ss0 =>
      rw [merge, if_neg (by simp), h]
      rfl
  · intro s hs
    obtain ⟨a, b, segs⟩ := s
    cases segs with
    | nil =>
      exact ⟨[], [⟨a, b, SleepType.Sleep⟩], by rw [fillSession_segments_nil]; rfl⟩
    | cons first rest =>
      obtain ⟨lastSeg, hl⟩ := Option.isSome_iff_exists.mp
        (List.getLast?_isSome.mpr (List.cons_ne_nil first rest))
      exact ⟨_, _, fillSession_segments_cons a b first rest lastSeg hl⟩

/-- Witness for `merge_conservation` at a two-session, two-segment input
whose second segment forces the cursor forward. -/
theorem merge_conservation_witness :
    (([⟨0, 10, [⟨1, 2, SleepType.Sleep⟩]⟩, ⟨20, 30, [⟨21, 22, SleepType.Awake⟩]⟩]
        : List SleepSession).map SleepSession.sleep_segments).flatten =
      [⟨1, 2, SleepType.Sleep⟩, ⟨21, 22, SleepType.Awake⟩] ∧
    (∀ s ∈ ([⟨0, 10, [⟨1, 2, SleepType.Sleep⟩]⟩,
        ⟨20, 30, [⟨21, 22, SleepType.Awake⟩]⟩] : List SleepSession),
      ∀ seg ∈ s.sleep_segments, containsStart s seg) ∧
    ([⟨0, 10, [⟨1, 2, SleepType.Sleep⟩]⟩, ⟨20, 30, [⟨21, 22, SleepType.Awake⟩]⟩]
        : List SleepSession).map (fun t => (t.start_time, t.end_time)) =
      ([⟨0, 10, []⟩, ⟨20, 30, []⟩] : List SleepSession).map
        (fun t => (t.start_time, t.end_time)) ∧
    merge [⟨0, 10, []⟩, ⟨20, 30, []⟩]
        [⟨1, 2, SleepType.Sleep⟩, ⟨21, 22, SleepType.Awake⟩] =
      some (([⟨0, 10, [⟨1, 2, SleepType.Sleep⟩]⟩,
        ⟨20, 30, [⟨21, 22, SleepType.Awake⟩]⟩] : List SleepSession).map
          fillSession) ∧
    (∀ s ∈ ([⟨0, 10, [⟨1, 2, SleepType.Sleep⟩]⟩,
        ⟨20, 30, [⟨21, 22, SleepType.Awake⟩]⟩] : List SleepSession),
      ∃ pre suf, (fillSession s).sleep_segments =
        pre ++ s.sleep_segments ++ suf) :=
  merge_conservation [⟨0, 10, []⟩, ⟨20, 30, []⟩]
    [⟨1, 2, SleepType.Sleep⟩, ⟨21, 22, SleepType.Awake⟩]
    [⟨0, 10, [⟨1, 2, SleepType.Sleep⟩]⟩, ⟨20, 30, [⟨21, 22, SleepType.Awake⟩]⟩]
    (by decide) (by decide) (by decide) (by decide) (by decide)

/-- C4: a segment batch containing a segment whose start instant lies inside
no session's interval makes the merge fail with the illegal-state error: the
assignment loop returns no result and the caller observes no sessions at
all, mutated or otherwise. -/
theorem merge_orphan_segment_fails (sessions : List SleepSession)
    (segments : List SleepSegment) (hne : sessions ≠ [])
    (hbad : ∃ seg ∈ segments, ∀ s ∈ sessions, ¬ containsStart s seg) :
    assign sessions segments = none ∧ merge sessions segments = none := by
  obtain ⟨seg, hseg, hall⟩ := hbad
  have hassign : assign sessions segments = none := by
    cases hres : assign sessions segments with
    | none => rfl
    | some out =>
      obtain ⟨s, hs, hc⟩ := assignGo_mem segments [] sessions out hres seg hseg
      exact absurd hc (hall s hs)
  refine ⟨hassign, ?_⟩
  rw [merge, if_neg (by simp [hne]), hassign]
  rfl

/-- Witness for `merge_orphan_segment_fails`: one session and a segment
starting well after its end. -/
theorem merge_orphan_segment_fails_witness :
    assign [⟨0, 10, []⟩] [⟨20, 30, SleepType.Sleep⟩] = none ∧
    merge [⟨0, 10, []⟩] [⟨20, 30, SleepType.Sleep⟩] = none :=
  merge_orphan_segment_fails [⟨0, 10, []⟩] [⟨20, 30, SleepType.Sleep⟩]
    (by decide) ⟨⟨20, 30, SleepType.Sleep⟩, by decide, by decide⟩

/-- C8: empty inputs are handled without error — merging zero sessions
yields the empty sequence (whatever the segments), and merging a non-empty
batch of assembler-built sessions with zero segments gives every session
exactly one full-interval `Sleep` filler. -/
theorem merge_empty_inputs :
    (∀ segments, merge [] segments = some []) ∧
    (∀ sessions : List SleepSession, sessions ≠ [] →
      (∀ s ∈ sessions, s.sleep_segments = []) →
      merge sessions [] =
        some (sessions.map (fun s =>
          { s with sleep_segments :=
              [⟨s.start_time, s.end_time, SleepType.Sleep⟩] }))) := by
  constructor
  · intro segments
    rfl
  · intro sessions hne hempty
    have hassign : assign sessions [] = some sessions := by
      rw [assign, assignGo]
      rfl
    rw [merge, if_neg (by simp [hne]), hassign]
    simp only [Option.map_some']
    congr 1
    apply List.map_congr_left
    intro s hs
    obtain ⟨a, b, segs⟩ := s
    have : segs = [] := by simpa using hempty _ hs
    subst this
    rfl

/-! ## Exact coverage -/

/-- Contiguity of a cons unfolds to the adjacent equation plus contiguity of
the tail. -/
theorem contiguousB_cons (x y : SleepSegment) (t : List SleepSegment) :
    contiguousB (x :: y :: t) = true ↔
      (x.end_time = y.start_time ∧ contiguousB (y :: t) = true) := by
  simp [contiguousB]

/-- Appending one segment that starts where the list ends keeps the list
contiguous. -/
theorem contiguousB_append_singleton (l : List SleepSegment)
    (y z : SleepSegment) (hc : contiguousB l = true) (hl : l.getLast? = some z)
    (hz : z.end_time = y.start_time) : contiguousB (l ++ [y]) = true := by
  induction l with
  | nil => exact absurd hl (by simp)
  | cons x t ih =>
    cases t with
    | nil =>
      have : x = z := by simpa using hl
      subst this
      simpa [contiguousB] using hz
    | cons x2 t2 =>
      obtain ⟨h1, h2⟩ := (contiguousB_cons x x2 t2).mp hc
      have hl2 : (x2 :: t2).getLast? = some z := by
        rw [← List.getLast?_cons_cons]; exact hl
      have := ih h2 hl2
      rw [List.cons_append]
      exact (contiguousB_cons x x2 (t2 ++ [y])).mpr ⟨h1, by simpa using this⟩

/-- The gap-filling pass establishes the exact-coverage invariant for a
session whose assigned segments are forward intervals forming a contiguous
chain inside the session's interval. -/
theorem fillSession_exactCover (s : SleepSession)
    (hse : s.start_time ≤ s.end_time)
    (hc : contiguousB s.sleep_segments = true)
    (hb : ∀ seg ∈ s.sleep_segments,
      s.start_time ≤ seg.start_time ∧ seg.start_time ≤ seg.end_time ∧
        seg.end_time ≤ s.end_time) :
    ExactCover (fillSession s) := by
  obtain ⟨a, b, segs⟩ := s
  cases segs with
  | nil =>
    show ExactCover ⟨a, b, [⟨a, b, SleepType.Sleep⟩]⟩
    refine ⟨by simp, rfl, ?_, by simp, by simp⟩
    intro seg hseg
    have : seg = ⟨a, b, SleepType.Sleep⟩ := by simpa using hseg
    subst this
    exact hse
  | cons first rest =>
    obtain ⟨lastSeg, hl⟩ := Option.isSome_iff_exists.mp
      (List.getLast?_isSome.mpr (List.cons_ne_nil first rest))
    have hfill := fillSession_segments_cons a b first rest lastSeg hl
    have hlast_mem : lastSeg ∈ first :: rest := List.mem_of_mem_getLast? (by rw [hl]; simp)
    obtain ⟨hf1, hf2, hf3⟩ := hb first (List.mem_cons_self _ _)
    obtain ⟨hg1, hg2, hg3⟩ := hb lastSeg hlast_mem
    have hbnd := fillSession_boundaries ⟨a, b, first :: rest⟩
    refine ⟨?_, ?_, ?_, ?_, ?_⟩
    · rw [hfill]
      split_ifs <;> simp
    · rw [hfill]
      by_cases h1 : first.start_time > a <;> by_cases h2 : lastSeg.end_time < b
      · rw [if_pos h1, if_pos h2]
        rw [List.singleton_append]
        refine contiguousB_append_singleton _ _ lastSeg ?_ ?_ rfl
        · exact (contiguousB_cons _ first rest).mpr ⟨rfl, hc⟩
        · rw [List.getLast?_cons_cons]; exact hl
      · rw [if_pos h1, if_neg h2]
        rw [List.singleton_append, List.append_nil]
        exact (contiguousB_cons _ first rest).mpr ⟨rfl, hc⟩
      · rw [if_neg h1, if_pos h2]
        rw [List.nil_append]
        exact contiguousB_append_singleton _ _ lastSeg hc hl rfl
      · rw [if_neg h1, if_neg h2]
        rw [List.nil_append, List.append_nil]
        exact hc
    · rw [hfill]
      intro seg hseg
      rcases List.mem_append.mp hseg with h' | h'
      · rcases List.mem_append.mp h' with h'' | h''
        · by_cases h1 : first.start_time > a
          · rw [if_pos h1] at h''
            have : seg = ⟨a, first.start_time, SleepType.Sleep⟩ := by simpa using h''
            subst this
            exact le_of_lt h1
          · rw [if_neg h1] at h''
            exact absurd h'' (by simp)
        · exact (hb seg h'').2.1
      · by_cases h2 : lastSeg.end_time < b
        · rw [if_pos h2] at h'
          have : seg = ⟨lastSeg.end_time, b, SleepType.Sleep⟩ := by simpa using h'
          subst this
          exact le_of_lt h2
        · rw [if_neg h2] at h'
          exact absurd h' (by simp)
    · rw [hfill, hbnd.1]
      by_cases h1 : first.start_time > a
      · rw [if_pos h1]
        simp
      · rw [if_neg h1]
        rw [List.nil_append, List.cons_append]
        simp only [List.head?_cons, Option.map_some']
        have : first.start_time = a := le_antisymm (not_lt.mp h1) hf1
        rw [this]
    · rw [hfill, hbnd.2]
      by_cases h2 : lastSeg.end_time < b
      · rw [if_pos h2]
        rw [List.getLast?_concat]
        simp
      · rw [if_neg h2]
        rw [List.append_nil]
        have hgl : ((if first.start_time > a then
            [(⟨a, first.start_time, SleepType.Sleep⟩ : SleepSegment)] else [])
            ++ first :: rest).getLast? = some lastSeg := by
          by_cases h1 : first.start_time > a
          · rw [if_pos h1, List.singleton_append, List.getLast?_cons_cons]
            exact hl
          · rw [if_neg h1, List.nil_append]
            exact hl
        rw [hgl]
        have : lastSeg.end_time = b := le_antisymm hg3 (not_lt.mp h2)
        simp [this]

/-- C1 (counterexample): the merge does not fill interior gaps.  With one
session `[0,10]` and two sorted segments `[0,3]` and `[5,10]` — an input
satisfying every merge precondition — the merged session's segments leave
the gap `(3,5)` uncovered, so the segment list is not contiguous and its
union is not the session interval. -/
theorem merge_exact_cover_counterexample :
    sessionsSortedB [⟨0, 10, []⟩] = true ∧
    segmentsSortedB [⟨0, 3, SleepType.Sleep⟩, ⟨5, 10, SleepType.Sleep⟩] = true ∧
    (∀ seg ∈ ([⟨0, 3, SleepType.Sleep⟩, ⟨5, 10, SleepType.Sleep⟩] :
        List SleepSegment),
      ∃ s ∈ ([⟨0, 10, []⟩] : List SleepSession), containsStart s seg) ∧
    merge [⟨0, 10, []⟩] [⟨0, 3, SleepType.Sleep⟩, ⟨5, 10, SleepType.Sleep⟩] =
      some [⟨0, 10, [⟨0, 3, SleepType.Sleep⟩, ⟨5, 10, SleepType.Sleep⟩]⟩] ∧
    ¬ ExactCover ⟨0, 10, [⟨0, 3, SleepType.Sleep⟩, ⟨5, 10, SleepType.Sleep⟩]⟩ := by
  refine ⟨rfl, rfl, by decide, by decide, by decide⟩

/-- C1 (amended): for every session returned by the merge, the segment list
is non-empty, ordered, contiguous, and covers the session interval exactly,
provided the segments the assignment pass gave that session already form a
contiguous chain of forward intervals lying inside the session's interval
(in particular they leave no interior gap and do not overrun the session's
end); the gap-filling pass then closes exactly the leading and trailing
gaps. -/
theorem merge_exact_cover_of_aligned (sessions : List SleepSession)
    (segments : List SleepSegment) (out : List SleepSession)
    (hne : sessions ≠ [])
    (h : assign sessions segments = some out)
    (hgood : ∀ s ∈ out, s.start_time ≤ s.end_time ∧
      contiguousB s.sleep_segments = true ∧
      ∀ seg ∈ s.sleep_segments,
        s.start_time ≤ seg.start_time ∧ seg.start_time ≤ seg.end_time ∧
          seg.end_time ≤ s.end_time) :
    merge sessions segments = some (out.map fillSession) ∧
    ∀ t ∈ out.map fillSession, ExactCover t := by
  constructor
  · rw [merge, if_neg (by simp [hne]), h]
    rfl
  · intro t ht
    obtain ⟨s, hs, hfill⟩ := List.mem_map.mp ht
    obtain ⟨h1, h2, h3⟩ := hgood s hs
    rw [← hfill]
    exact fillSession_exactCover s h1 h2 h3

/-- Witness for `merge_exact_cover_of_aligned`: one session whose single
assigned segment leaves a leading and a trailing gap. -/
theorem merge_exact_cover_of_aligned_witness :
    merge [⟨0, 10, []⟩] [⟨2, 5, SleepType.REM⟩] =
      some (([⟨0, 10, [⟨2, 5, SleepType.REM⟩]⟩] : List SleepSession).map
        fillSession) ∧
    ∀ t ∈ ([⟨0, 10, [⟨2, 5, SleepType.REM⟩]⟩] : List SleepSession).map
        fillSession, ExactCover t :=
  merge_exact_cover_of_aligned [⟨0, 10, []⟩] [⟨2, 5, SleepType.REM⟩]
    [⟨0, 10, [⟨2, 5, SleepType.REM⟩]⟩] (by decide) (by decide) (by decide)

/-! ## Duration arithmetic -/

/-- The accumulating loop of `sleep_type_duration` computes the sum of the
durations of the matching segments. -/
theorem foldl_type_duration (segs : List SleepSegment)
    (ts : List SleepType) (init : Int) :
    segs.foldl (fun acc seg =>
        if seg.sleep_type ∈ ts then acc + seg.duration else acc) init =
      init + ((segs.filter (fun seg => decide (seg.sleep_type ∈ ts))).map
        SleepSegment.duration).sum := by
  induction segs generalizing init with
  | nil => simp
  | cons head tail ih =>
    by_cases h : head.sleep_type ∈ ts
    · simp only [List.foldl_cons, List.filter_cons, h, decide_True, if_true,
        List.map_cons, List.sum_cons, if_pos h]
      rw [ih]
      ring
    · simp only [List.foldl_cons, List.filter_cons, h, decide_False,
        if_false, if_neg h]
      exact ih init

/-- Every segment's duration is counted exactly once across the asleep,
awake and out-of-bed families. -/
theorem duration_family_partition (segs : List SleepSegment) :
    ((segs.filter (fun seg => decide (seg.sleep_type ∈ ASLEEP_TYPES))).map
        SleepSegment.duration).sum +
      ((segs.filter (fun seg => decide (seg.sleep_type ∈ AWAKE_TYPES))).map
        SleepSegment.duration).sum +
      ((segs.filter (fun seg =>
          decide (seg.sleep_type = SleepType.Out_of_bed))).map
        SleepSegment.duration).sum =
      (segs.map SleepSegment.duration).sum := by
  induction segs with
  | nil => simp
  | cons head tail ih =>
    rw [List.filter_cons, List.filter_cons, List.filter_cons, List.map_cons,
      List.sum_cons]
    cases htype : head.sleep_type
    case Awake =>
      rw [if_neg (by decide), if_pos (by decide), if_neg (by decide)]
      simp only [List.map_cons, List.sum_cons]
      linarith [ih]
    case Sleep =>
      rw [if_pos (by decide), if_neg (by decide), if_neg (by decide)]
      simp only [List.map_cons, List.sum_cons]
      linarith [ih]
    case Out_of_bed =>
      rw [if_neg (by decide), if_neg (by decide), if_pos (by decide)]
      simp only [List.map_cons, List.sum_cons]
      linarith [ih]
    case Light_Sleep =>
      rw [if_pos (by decide), if_neg (by decide), if_neg (by decide)]
      simp only [List.map_cons, List.sum_cons]
      linarith [ih]
    case Deep_Sleep =>
      rw [if_pos (by decide), if_neg (by decide), if_neg (by decide)]
      simp only [List.map_cons, List.sum_cons]
      linarith [ih]
    case REM =>
      rw [if_pos (by decide), if_neg (by decide), if_neg (by decide)]
      simp only [List.map_cons, List.sum_cons]
      linarith [ih]

/-- A contiguous chain's durations telescope to the whole span. -/
theorem contiguous_sum_durations (segs : List SleepSegment) :
    ∀ first lastSeg, segs.head? = some first → segs.getLast? = some lastSeg →
    contiguousB segs = true →
    (segs.map SleepSegment.duration).sum =
      lastSeg.end_time - first.start_time := by
  induction segs with
  | nil => intro first lastSeg h1; exact absurd h1 (by simp)
  | cons x t ih =>
    intro first lastSeg h1 h2 hc
    have hx : x = first := by simpa using h1
    subst hx
    cases t with
    | nil =>
      have : x = lastSeg := by simpa using h2
      subst this
      simp [SleepSegment.duration]
    | cons y t2 =>
      obtain ⟨he, hc2⟩ := (contiguousB_cons x y t2).mp hc
      have h2' : (y :: t2).getLast? = some lastSeg := by
        rw [← List.getLast?_cons_cons]; exact h2
      have hsum := ih y lastSeg (by simp) h2' hc2
      rw [List.map_cons, List.sum_cons, hsum, SleepSegment.duration, he]
      ring

/-- A sum of non-negative integers is zero exactly when every summand is. -/
theorem sum_eq_zero_iff_of_nonneg (l : List Int) (h : ∀ x ∈ l, 0 ≤ x) :
    l.sum = 0 ↔ ∀ x ∈ l, x = 0 := by
  induction l with
  | nil => simp
  | cons x t ih =>
    have hx := h x (List.mem_cons_self x t)
    have ht := fun y hy => h y (List.mem_cons_of_mem x hy)
    have hts : 0 ≤ t.sum := List.sum_nonneg ht
    rw [List.sum_cons]
    constructor
    · intro hz
      have hx0 : x = 0 := by omega
      have ht0 : t.sum = 0 := by omega
      intro y hy
      rcases List.mem_cons.mp hy with h' | h'
      · rw [h']; exact hx0
      · exact ((ih ht).mp ht0) y h'
    · intro hall
      have hx0 : x = 0 := hall x (List.mem_cons_self x t)
      have ht0 : t.sum = 0 := (ih ht).mpr fun y hy =>
        hall y (List.mem_cons_of_mem x hy)
      omega

/-- C5 (counterexample): a fully-merged session can violate
`asleep + awake ≤ total`.  A single segment starting inside the session but
ending past the session's end is kept as-is by the merge (its start, not its
end, is what is checked), so the session `[0,10]` ends up with asleep
duration 20 against a total duration of 10 — even though the input satisfies
every merge precondition. -/
theorem duration_additivity_counterexample :
    sessionsSortedB [⟨0, 10, []⟩] = true ∧
    segmentsSortedB [⟨0, 20, SleepType.Sleep⟩] = true ∧
    (∀ seg ∈ ([⟨0, 20, SleepType.Sleep⟩] : List SleepSegment),
      ∃ s ∈ ([⟨0, 10, []⟩] : List SleepSession), containsStart s seg) ∧
    merge [⟨0, 10, []⟩] [⟨0, 20, SleepType.Sleep⟩] =
      some [⟨0, 10, [⟨0, 20, SleepType.Sleep⟩]⟩] ∧
    (SleepSession.mk 0 10 [⟨0, 20, SleepType.Sleep⟩]).asleep_duration =
      some 20 ∧
    (SleepSession.mk 0 10 [⟨0, 20, SleepType.Sleep⟩]).awake_duration =
      some 0 ∧
    ¬ ((20 : Int) + 0 ≤ 10 - 0) := by
  refine ⟨rfl, rfl, by decide, by decide, by decide, by decide, by decide⟩

/-- C5 (amended): for every session satisfying the exact-coverage invariant,
`asleep_duration + awake_duration ≤ end - start`, with equality exactly when
every `Out_of_bed` segment has zero duration (in particular when there is no
`Out_of_bed` segment at all). -/
theorem duration_additivity_of_exact_cover (s : SleepSession)
    (h : ExactCover s) :
    ∃ a w, s.asleep_duration = some a ∧ s.awake_duration = some w ∧
      a + w ≤ s.end_time - s.start_time ∧
      (a + w = s.end_time - s.start_time ↔
        ∀ seg ∈ s.sleep_segments,
          seg.sleep_type = SleepType.Out_of_bed → seg.duration = 0) := by
  obtain ⟨hne, hc, hfwd, hhead, hlast⟩ := h
  obtain ⟨first, hf⟩ : ∃ f, s.sleep_segments.head? = some f := by
    cases hh : s.sleep_segments.head? with
    | none => rw [hh] at hhead; exact absurd hhead (by simp)
    | some f => exact ⟨f, rfl⟩
  obtain ⟨lastSeg, hl⟩ : ∃ g, s.sleep_segments.getLast? = some g := by
    cases hh : s.sleep_segments.getLast? with
    | none => rw [hh] at hlast; exact absurd hlast (by simp)
    | some g => exact ⟨g, rfl⟩
  have hfs : first.start_time = s.start_time := by
    rw [hf] at hhead; simpa using hhead
  have hle : lastSeg.end_time = s.end_time := by
    rw [hl] at hlast; simpa using hlast
  have htotal : (s.sleep_segments.map SleepSegment.duration).sum =
      s.end_time - s.start_time := by
    rw [contiguous_sum_durations s.sleep_segments first lastSeg hf hl hc,
      hfs, hle]
  have hpart := duration_family_partition s.sleep_segments
  have hOall : ∀ x ∈ ((s.sleep_segments.filter (fun seg =>
      decide (seg.sleep_type = SleepType.Out_of_bed))).map
        SleepSegment.duration), 0 ≤ x := by
    intro x hx
    obtain ⟨seg, hseg, rfl⟩ := List.mem_map.mp hx
    have hmem : seg ∈ s.sleep_segments := (List.mem_filter.mp hseg).1
    have h3 := hfwd seg hmem
    simp only [SleepSegment.duration]
    omega
  have hO_nonneg := List.sum_nonneg hOall
  have hA : s.asleep_duration =
      some (((s.sleep_segments.filter (fun seg =>
        decide (seg.sleep_type ∈ ASLEEP_TYPES))).map
          SleepSegment.duration).sum) := by
    simp only [SleepSession.asleep_duration, sleep_type_duration,
      foldl_type_duration, zero_add]
  have hW : s.awake_duration =
      some (((s.sleep_segments.filter (fun seg =>
        decide (seg.sleep_type ∈ AWAKE_TYPES))).map
          SleepSegment.duration).sum) := by
    simp only [SleepSession.awake_duration, sleep_type_duration,
      foldl_type_duration, zero_add]
  refine ⟨_, _, hA, hW, ?_, ?_⟩
  · linarith
  · constructor
    · intro heq
      have hO : ((s.sleep_segments.filter (fun seg =>
          decide (seg.sleep_type = SleepType.Out_of_bed))).map
            SleepSegment.duration).sum = 0 := by linarith
      have hzero := (sum_eq_zero_iff_of_nonneg _ hOall).mp hO
      intro seg hseg htype
      exact hzero seg.duration (List.mem_map.mpr
        ⟨seg, List.mem_filter.mpr ⟨hseg, by simp [htype]⟩, rfl⟩)
    · intro hall
      have hO : ((s.sleep_segments.filter (fun seg =>
          decide (seg.sleep_type = SleepType.Out_of_bed))).map
            SleepSegment.duration).sum = 0 := by
        refine (sum_eq_zero_iff_of_nonneg _ hOall).mpr ?_
        intro x hx
        obtain ⟨seg, hseg, rfl⟩ := List.mem_map.mp hx
        obtain ⟨hmem, hdec⟩ := List.mem_filter.mp hseg
        exact hall seg hmem (of_decide_eq_true hdec)
      linarith

/-- Witness for `duration_additivity_of_exact_cover` at a session exactly
covered by one full-interval `Sleep` segment. -/
theorem duration_additivity_of_exact_cover_witness :
    ∃ a w,
      (SleepSession.mk 0 10 [⟨0, 10, SleepType.Sleep⟩]).asleep_duration =
        some a ∧
      (SleepSession.mk 0 10 [⟨0, 10, SleepType.Sleep⟩]).awake_duration =
        some w ∧
      a + w ≤ (SleepSession.mk 0 10 [⟨0, 10, SleepType.Sleep⟩]).end_time -
        (SleepSession.mk 0 10 [⟨0, 10, SleepType.Sleep⟩]).start_time ∧
      (a + w = (SleepSession.mk 0 10 [⟨0, 10, SleepType.Sleep⟩]).end_time -
          (SleepSession.mk 0 10 [⟨0, 10, SleepType.Sleep⟩]).start_time ↔
        ∀ seg ∈ (SleepSession.mk 0 10
            [⟨0, 10, SleepType.Sleep⟩]).sleep_segments,
          seg.sleep_type = SleepType.Out_of_bed → seg.duration = 0) :=
  duration_additivity_of_exact_cover ⟨0, 10, [⟨0, 10, SleepType.Sleep⟩]⟩
    (by decide)
